import Mathlib

/-!
Verification development for the SIH-2025 traditional-medicine mapping service.

The Lean definitions below are shallow embeddings of the Python source:

* `AC` embeds `SIH/Mapping/api/autocomplete.py` (normalisation, Levenshtein
  distance, fuzzy matching, the three-stage autocomplete search);
* `RR` embeds `SIH/Mapping/reranking.py` (the selection-count boost and
  `apply_boost_to_results`);
* `SP` embeds the cascading pipeline of `SIH/Mapping/search.py`
  (`bm25_search`, `tfidf_rerank`, `semantic_rerank`, `search_siddha`).

Modelling conventions: Python floats are modelled by real numbers; Python
dictionaries with a fixed set of optional keys are modelled by structures with
`Option` fields; the stable sort used by `list.sort(key=...)` is modelled as an
insertion sort on index-value pairs ordered lexicographically by
(key, original position), which is exactly the specification of a stable sort;
`np.argsort` (followed by `[::-1]` in the source) is modelled as the stable
ascending argsort followed by list reversal.
-/

namespace StableSort

variable {α : Type} {β : Type} [LinearOrder β]

/-- Ascending stable-sort order on index-value pairs: compare keys first and
break ties by the original position. -/
def lexAsc (key : α → β) (p q : ℕ × α) : Prop :=
  key p.2 < key q.2 ∨ (key p.2 = key q.2 ∧ p.1 ≤ q.1)

/-- Descending stable-sort order on index-value pairs: compare keys first
(reversed) and break ties by the original position. This is the order realised
by `list.sort(key=..., reverse=True)` in Python, which is stable. -/
def lexDesc (key : α → β) (p q : ℕ × α) : Prop :=
  key q.2 < key p.2 ∨ (key p.2 = key q.2 ∧ p.1 ≤ q.1)

instance (key : α → β) : DecidableRel (lexAsc key) := fun p q => by
  unfold lexAsc; infer_instance

instance (key : α → β) : DecidableRel (lexDesc key) := fun p q => by
  unfold lexDesc; infer_instance

instance (key : α → β) : IsTotal (ℕ × α) (lexAsc key) := by
  constructor
  intro p q
  rcases lt_trichotomy (key p.2) (key q.2) with h | h | h
  · exact Or.inl (Or.inl h)
  · rcases Nat.le_total p.1 q.1 with h1 | h1
    · exact Or.inl (Or.inr ⟨h, h1⟩)
    · exact Or.inr (Or.inr ⟨h.symm, h1⟩)
  · exact Or.inr (Or.inl h)

instance (key : α → β) : IsTrans (ℕ × α) (lexAsc key) := by
  constructor
  rintro p q r (h | ⟨h, h1⟩) (h' | ⟨h', h1'⟩)
  · exact Or.inl (h.trans h')
  · exact Or.inl (h'.symm ▸ h)
  · exact Or.inl (h ▸ h')
  · exact Or.inr ⟨h.trans h', h1.trans h1'⟩

instance (key : α → β) : IsTotal (ℕ × α) (lexDesc key) := by
  constructor
  intro p q
  rcases lt_trichotomy (key p.2) (key q.2) with h | h | h
  · exact Or.inr (Or.inl h)
  · rcases Nat.le_total p.1 q.1 with h1 | h1
    · exact Or.inl (Or.inr ⟨h, h1⟩)
    · exact Or.inr (Or.inr ⟨h.symm, h1⟩)
  · exact Or.inl (Or.inl h)

instance (key : α → β) : IsTrans (ℕ × α) (lexDesc key) := by
  constructor
  rintro p q r (h | ⟨h, h1⟩) (h' | ⟨h', h1'⟩)
  · exact Or.inl (h'.trans h)
  · exact Or.inl (h' ▸ h)
  · exact Or.inl (lt_of_lt_of_eq h' h.symm)
  · exact Or.inr ⟨h.trans h', h1.trans h1'⟩

/-- Stable ascending sort by `key`, the model of Python
`list.sort(key=...)`. -/
def sortAsc (key : α → β) (l : List α) : List α :=
  (l.enum.insertionSort (lexAsc key)).map Prod.snd

/-- Stable descending sort by `key`, the model of Python
`list.sort(key=..., reverse=True)`. -/
def sortDesc (key : α → β) (l : List α) : List α :=
  (l.enum.insertionSort (lexDesc key)).map Prod.snd

instance : IsAntisymm (ℕ × α) (fun p q : ℕ × α => p.1 < q.1) := by
  constructor
  intro p q h h'
  exact absurd (h.trans h') (lt_irrefl _)

end StableSort

namespace AC

/-- Substitution cost of one character against another, the Python expression
`(c1 != c2)` used in `levenshtein_distance`. -/
def levCost (a b : Char) : ℕ := if a = b then 0 else 1

/-- One cell-by-cell step of the inner `for j, c2 in enumerate(s2)` loop of
`levenshtein_distance`: given the remaining characters of `s2`, the matching
tail of the previous row, and the value `a` already appended to the current
row, produce the rest of the current row.  Each new cell is
`min(insertions, deletions, substitutions)` exactly as in the source. -/
def rowAux (c1 : Char) : List Char → List ℕ → ℕ → List ℕ
  | [], _, a => [a]
  | c2 :: rest, p0 :: p1 :: ps, a =>
      a :: rowAux c1 rest (p1 :: ps) (min (p1 + 1) (min (a + 1) (p0 + levCost c1 c2)))
  | _ :: _, _, a => [a]

/-- The outer `for i, c1 in enumerate(s1)` loop of `levenshtein_distance`:
thread the previous row through `rowAux`, starting each new row with `i + 1`. -/
def levLoop (s2 : List Char) : List Char → List ℕ → ℕ → List ℕ
  | [], prev, _ => prev
  | c1 :: rest, prev, i => levLoop s2 rest (rowAux c1 s2 prev (i + 1)) (i + 1)

/-- The body of `levenshtein_distance` after the length swap: handle the empty
second string, otherwise run the dynamic program seeded with
`range(len(s2) + 1)` and return the last entry of the final row. -/
def levCore (s1 s2 : List Char) : ℕ :=
  if s2.length = 0 then s1.length
  else (levLoop s2 s1 (List.range (s2.length + 1)) 0).getLastD 0

/-- `levenshtein_distance` from `autocomplete.py`: reorder the arguments so the
first is at least as long, then run the row-based dynamic program. -/
def levenshtein_distance (s1 s2 : String) : ℕ :=
  if s1.length < s2.length then levCore s2.data s1.data else levCore s1.data s2.data

/-- The textbook recursive Levenshtein distance, used as the specification the
dynamic program is proved against. -/
def levR : List Char → List Char → ℕ
  | [], ys => ys.length
  | x :: xs, [] => (x :: xs).length
  | x :: xs, y :: ys =>
      min (levR xs (y :: ys) + 1) (min (levR (x :: xs) ys + 1) (levR xs ys + levCost x y))
termination_by xs ys => xs.length + ys.length
decreasing_by
  all_goals simp only [List.length_cons]
  all_goals omega

/-- The character class kept by the `re.sub` in `normalize`: the regular
expression `[^a-zA-Z0-9 ]` removes everything outside this set. -/
def isKept (c : Char) : Bool :=
  c.isLower || c.isUpper || c.isDigit || c == ' '

/-- `normalize` from `autocomplete.py`: lower-case the text, then strip every
character other than ASCII letters, digits and the space. -/
def normalize (text : String) : String :=
  String.mk ((text.data.map Char.toLower).filter isKept)

/-- Python substring membership `needle in hay`, on the character lists. -/
def listIn (needle hay : List Char) : Bool :=
  (List.range (hay.length + 1)).any (fun i => needle == (hay.drop i).take needle.length)

/-- Python `hay.startswith(needle)` on strings. -/
def strStartsWith (hay needle : String) : Bool :=
  hay.data.take needle.data.length == needle.data

/-- Python `needle in hay` on strings. -/
def strIn (needle hay : String) : Bool :=
  listIn needle.data hay.data

/-- Python `str.split()` restricted to the space character, which is the only
whitespace `normalize` can produce: split on runs of spaces and drop empty
words. -/
def splitWords (s : String) : List String :=
  go s.data []
where
  /-- Accumulate the current word (reversed) while scanning. -/
  go : List Char → List Char → List String
    | [], acc => if acc.isEmpty then [] else [String.mk acc.reverse]
    | c :: cs, acc =>
        if c = ' ' then
          if acc.isEmpty then go cs [] else String.mk acc.reverse :: go cs []
        else go cs (c :: acc)

/-- One catalog entry (`{"code": ..., "term": ..., "definition": ...}`). -/
structure Item where
  code : String
  term : String
  definition : String
deriving DecidableEq

/-- The per-item distance computed inside `fuzzy_match_terms`: the minimum of
the query-to-term distance, the query-to-code distance, and the distance to
each word of the term longer than two characters.  Python seeds the word
minimum with `float(.inf.)`; folding with the term distance as the base gives
the same overall minimum because the term distance participates in the outer
`min` anyway. -/
def bestDistance (query_norm : String) (item : Item) : ℕ :=
  let term_norm := normalize item.term
  let code_norm := normalize item.code
  let term_distance := levenshtein_distance query_norm term_norm
  let code_distance := levenshtein_distance query_norm code_norm
  let word_distances :=
    ((splitWords term_norm).filter (fun w => 2 < w.length)).map
      (fun w => levenshtein_distance query_norm w)
  min term_distance (min code_distance (word_distances.foldr min term_distance))

/-- `fuzzy_match_terms` from `autocomplete.py`: keep the items whose best
distance is at most `max_distance`, paired with that distance, sorted
ascending by distance (a stable sort, as in Python). -/
def fuzzy_match_terms (query : String) (dataset : List Item) (max_distance : ℕ) :
    List (Item × ℕ) :=
  let query_norm := normalize query
  let hits := dataset.filterMap (fun item =>
    let d := bestDistance query_norm item
    if d ≤ max_distance then some (item, d) else none)
  StableSort.sortAsc (fun m => m.2) hits

/-- One fuzzy suggestion (`{"item": ..., "distance": ..., "suggestion_text": ...}`). -/
structure Suggestion where
  item : Item
  distance : ℕ
  suggestion_text : String
deriving DecidableEq

/-- A single quote character, written by code point to keep source scanning
simple. -/
def squote : String := String.singleton (Char.ofNat 39)

/-- The suggestion record built for each of the top fuzzy matches. -/
def mkSuggestion (m : Item × ℕ) : Suggestion :=
  { item := m.1
    distance := m.2
    suggestion_text := "Did you mean " ++ squote ++ m.1.term ++ squote ++ "?" }

/-- The dictionary returned by `autocomplete_search`.  `has_fuzzy` is an
`Option` because the early return for short queries omits that key. -/
structure AutoResult where
  results : List Item
  fuzzy_suggestions : List Suggestion
  has_fuzzy : Option Bool
deriving DecidableEq

/-- Priority 1 of `autocomplete_search`: exact prefix matches on the
normalized term, code or definition. -/
def stage1 (query_norm : String) (dataset : List Item) : List Item :=
  dataset.filter (fun item =>
    strStartsWith (normalize item.term) query_norm
      || strStartsWith (normalize item.code) query_norm
      || strStartsWith (normalize item.definition) query_norm)

/-- Priorities 1 and 2 of `autocomplete_search`: after the prefix pass, if
fewer than 20 results were found, append the substring matches that are not
already present (the duplicate check inspects the growing list, as the Python
loop does). -/
def stage2 (query_norm : String) (dataset : List Item) : List Item :=
  let results := stage1 query_norm dataset
  if results.length < 20 then
    dataset.foldl (fun acc item =>
      if strIn query_norm (normalize (item.term ++ " " ++ item.code ++ " " ++ item.definition))
          && !(acc.contains item)
      then acc ++ [item] else acc) results
  else results

/-- `autocomplete_search` from `autocomplete.py`.  Note the early return for
queries whose normalized form is shorter than 2 characters: the Python code
returns a dictionary with only `results` and `fuzzy_suggestions` there, so the
`has_fuzzy` field is `none` on that path. -/
def autocomplete_search (query : String) (dataset : List Item) : AutoResult :=
  let query_norm := normalize query
  if query_norm.length < 2 then
    { results := [], fuzzy_suggestions := [], has_fuzzy := none }
  else
    let results := stage2 query_norm dataset
    let fuzzy_matches :=
      if results.length = 0 ∧ 3 ≤ query_norm.length
      then fuzzy_match_terms query_norm dataset 2 else []
    let fuzzy_suggestions := (fuzzy_matches.take 5).map mkSuggestion
    let results2 :=
      if fuzzy_matches = [] then results else (fuzzy_matches.take 10).map Prod.fst
    { results := results2.take 20
      fuzzy_suggestions := fuzzy_suggestions
      has_fuzzy := some (decide (0 < fuzzy_suggestions.length)) }

end AC

namespace RR

/-- `MAX_BOOST` from `reranking.py`: the boost never exceeds 0.5. -/
noncomputable def MAX_BOOST : ℝ := 0.5

/-- `BOOST_WEIGHT` from `reranking.py`: the logarithmic boost multiplier. -/
noncomputable def BOOST_WEIGHT : ℝ := 0.1

/-- `ReRankingEngine.calculate_boost`: zero for non-positive counts, otherwise
`log10(count + 1) * BOOST_WEIGHT` capped at `MAX_BOOST`.  Python `math.log10`
is modelled by the real base-10 logarithm. -/
noncomputable def calculate_boost (selection_count : ℕ) : ℝ :=
  if selection_count ≤ 0 then 0
  else min (Real.logb 10 ((selection_count : ℝ) + 1) * BOOST_WEIGHT) MAX_BOOST

/-- One search-result dictionary as seen by `apply_boost_to_results`.  The
keys the engine reads or writes are explicit `Option` fields (absent key =
`none`); every other key of the dictionary is bundled in `extra`, which the
engine never touches. -/
structure ResultItem (α : Type) where
  code : Option String
  score : Option ℝ
  final_score : Option ℝ
  boost_applied : Option ℝ
  selection_count : Option ℕ
  extra : α

/-- Python truthiness of `item.get(code_field)`: falsy when the key is absent
or the string is empty. -/
def codeFalsy (c : Option String) : Bool :=
  match c with
  | none => true
  | some s => s == ""

/-- Python `round(x, 3)`.  Mathlib `round` rounds half away from zero where
Python rounds half to even; no property proved below depends on the value of
this field. -/
noncomputable def round3 (x : ℝ) : ℝ := (round (x * 1000) : ℤ) / 1000

/-- The loop body of `apply_boost_to_results` for one item: skip items with a
falsy code, otherwise write `final_score`, `boost_applied` and
`selection_count`.  `selection_counts` models the Python dictionary through
its total lookup `selection_counts.get(code, 0)`. -/
noncomputable def boostOne {α : Type} (selection_counts : String → ℕ)
    (item : ResultItem α) : ResultItem α :=
  if codeFalsy item.code then item
  else
    let code := item.code.getD ""
    let base_score := item.score.getD 0.5
    let selection_count := selection_counts code
    let boost := calculate_boost selection_count
    { item with
      final_score := some (base_score + boost)
      boost_applied := some (round3 boost)
      selection_count := some selection_count }

/-- The sort key of `apply_boost_to_results`:
`x.get('final_score', x.get('score', 0))`. -/
noncomputable def sortKey {α : Type} (item : ResultItem α) : ℝ :=
  item.final_score.getD (item.score.getD 0)

/-- `ReRankingEngine.apply_boost_to_results`: boost every item in place, then
stable-sort the list descending by the sort key. -/
noncomputable def apply_boost_to_results {α : Type} (results : List (ResultItem α))
    (selection_counts : String → ℕ) : List (ResultItem α) :=
  StableSort.sortDesc sortKey (results.map (boostOne selection_counts))

end RR

namespace SP

/-- The comparison used to model `np.argsort`: order positions by score, equal
scores by position.  A stable ascending argsort is exactly the sort of the
index list by this relation. -/
def argLe (scores : List ℝ) (i j : ℕ) : Prop :=
  scores.getD i 0 < scores.getD j 0 ∨ (scores.getD i 0 = scores.getD j 0 ∧ i ≤ j)

noncomputable instance (scores : List ℝ) : DecidableRel (argLe scores) := fun i j => by
  unfold argLe; infer_instance

instance (scores : List ℝ) : IsTotal ℕ (argLe scores) := by
  constructor
  intro i j
  rcases lt_trichotomy (scores.getD i 0) (scores.getD j 0) with h | h | h
  · exact Or.inl (Or.inl h)
  · rcases Nat.le_total i j with h1 | h1
    · exact Or.inl (Or.inr ⟨h, h1⟩)
    · exact Or.inr (Or.inr ⟨h.symm, h1⟩)
  · exact Or.inr (Or.inl h)

instance (scores : List ℝ) : IsTrans ℕ (argLe scores) := by
  constructor
  rintro i j k (h | ⟨h, h1⟩) (h' | ⟨h', h1'⟩)
  · exact Or.inl (h.trans h')
  · exact Or.inl (h'.symm ▸ h)
  · exact Or.inl (h ▸ h')
  · exact Or.inr ⟨h.trans h', h1.trans h1'⟩

/-- `np.argsort(scores)`: a permutation of the positions of `scores` sorted
ascending by score.  The default numpy kind leaves the relative order of equal
scores unspecified; this model fixes one admissible resolution (ties in
position order, which numpy realises on small arrays via its insertion-sort
cutoff).  No universally quantified claim below relies on the chosen tie
order: the general properties are proved for every ascending-by-score
permutation of the indices. -/
noncomputable def argsort (scores : List ℝ) : List ℕ :=
  (List.range scores.length).insertionSort (argLe scores)

/-- `bm25_search` from `search.py` with the scores of `bm25.get_scores`
supplied as input: `np.argsort(scores)[::-1][:top_k]`. -/
noncomputable def bm25_search (scores : List ℝ) (top_k : ℕ) : List ℕ :=
  ((argsort scores).reverse).take top_k

/-- `tfidf_rerank` from `search.py` with the TF-IDF similarity of each
document supplied as a function: score the candidates, take the locally best
`top_k`, and map the local positions back to document ids. -/
noncomputable def tfidf_rerank (tfidfScore : ℕ → ℝ) (candidate_ids : List ℕ)
    (top_k : ℕ) : List ℕ :=
  let scores := candidate_ids.map tfidfScore
  let top_local := ((argsort scores).reverse).take top_k
  top_local.map (fun i => candidate_ids.getD i 0)

/-- One candidate record returned by `semantic_rerank`
(`{"code": ..., "term": ..., "score": ...}`). -/
structure Candidate where
  code : String
  term : String
  score : ℝ

/-- `semantic_rerank` from `search.py` with the embedding similarity supplied
as a function: score the candidates, take the locally best `top_k`, and build
candidate records from the catalog lists `codes` and `terms`. -/
noncomputable def semantic_rerank (semScore : ℕ → ℝ) (codes terms : List String)
    (candidate_ids : List ℕ) (top_k : ℕ) : List Candidate :=
  let scores := candidate_ids.map semScore
  let top_local := ((argsort scores).reverse).take top_k
  top_local.map (fun i =>
    { code := codes.getD (candidate_ids.getD i 0) ""
      term := terms.getD (candidate_ids.getD i 0) ""
      score := scores.getD i 0 })

/-- `search_siddha` from `search.py`: BM25 keeps 100 documents, TF-IDF
re-ranks down to 60, the semantic stage returns the final 10 candidates. -/
noncomputable def search_siddha (bm25Scores : List ℝ) (tfidfScore semScore : ℕ → ℝ)
    (codes terms : List String) : List Candidate :=
  let bm25_ids := bm25_search bm25Scores 100
  let tfidf_ids := tfidf_rerank tfidfScore bm25_ids 60
  semantic_rerank semScore codes terms tfidf_ids 10

end SP

/-- The catalog entry `Fever disorder`, with a code and an empty definition
that produce no prefix or substring hit for the query `febr`. -/
def feverItem : AC.Item := { code := "XK01", term := "Fever disorder", definition := "" }

/-- A catalog containing only `feverItem`. -/
def feverCatalog : List AC.Item := [feverItem]

/-- A fresh candidate with code `A` and score 1, used to instantiate the
re-ranking theorems. -/
noncomputable def wItemA : RR.ResultItem Unit :=
  { code := some "A", score := some 1, final_score := none, boost_applied := none
    selection_count := none, extra := () }

/-- A fresh candidate with code `B` and score 0, used to instantiate the
re-ranking theorems. -/
noncomputable def wItemB : RR.ResultItem Unit :=
  { code := some "B", score := some 0, final_score := none, boost_applied := none
    selection_count := none, extra := () }

/-- A candidate with code `A` and score 3/4, first in the incoming order. -/
noncomputable def cexA4 : RR.ResultItem Unit :=
  { code := some "A", score := some (3 / 4), final_score := none
    boost_applied := none, selection_count := none, extra := () }

/-- A candidate with code `B` and score 73/100, second in the incoming order. -/
noncomputable def cexB4 : RR.ResultItem Unit :=
  { code := some "B", score := some (73 / 100), final_score := none
    boost_applied := none, selection_count := none, extra := () }

/-- Selection counts giving code `B` exactly one selection. -/
def cnts4 : String → ℕ := fun s => if s = "B" then 1 else 0

/-- A candidate with no code, raw score 1, and a stale `final_score` of 0. -/
noncomputable def cexX10 : RR.ResultItem Unit :=
  { code := none, score := some 1, final_score := some 0
    boost_applied := none, selection_count := none, extra := () }

/-- A fresh candidate with code `A` and raw score 1/2. -/
noncomputable def cexY10 : RR.ResultItem Unit :=
  { code := some "A", score := some (1 / 2), final_score := none
    boost_applied := none, selection_count := none, extra := () }

namespace StableSort

variable {α : Type} {β : Type} [LinearOrder β]

theorem sortAsc_perm (key : α → β) (l : List α) : List.Perm (sortAsc key l) l := by
  have h := (List.perm_insertionSort (lexAsc key) l.enum).map Prod.snd
  rwa [List.enum_eq_enumFrom, List.enumFrom_map_snd] at h

theorem sortDesc_perm (key : α → β) (l : List α) : List.Perm (sortDesc key l) l := by
  have h := (List.perm_insertionSort (lexDesc key) l.enum).map Prod.snd
  rwa [List.enum_eq_enumFrom, List.enumFrom_map_snd] at h

theorem sortAsc_pairwise (key : α → β) (l : List α) :
    (sortAsc key l).Pairwise (fun a b => key a ≤ key b) := by
  have h := List.sorted_insertionSort (lexAsc key) l.enum
  have h2 : (l.enum.insertionSort (lexAsc key)).Pairwise
      (fun p q : ℕ × α => key p.2 ≤ key q.2) := by
    refine h.imp ?_
    rintro p q (h | ⟨h, -⟩)
    · exact le_of_lt h
    · exact le_of_eq h
  exact (List.pairwise_map).mpr h2

theorem sortDesc_pairwise (key : α → β) (l : List α) :
    (sortDesc key l).Pairwise (fun a b => key b ≤ key a) := by
  have h := List.sorted_insertionSort (lexDesc key) l.enum
  have h2 : (l.enum.insertionSort (lexDesc key)).Pairwise
      (fun p q : ℕ × α => key q.2 ≤ key p.2) := by
    refine h.imp ?_
    rintro p q (h | ⟨h, -⟩)
    · exact le_of_lt h
    · exact le_of_eq h.symm
  exact (List.pairwise_map).mpr h2

theorem pairwise_fst_lt_enumFrom (n : ℕ) (l : List α) :
    (l.enumFrom n).Pairwise (fun p q : ℕ × α => p.1 < q.1) := by
  induction l generalizing n with
  | nil => simp
  | cons a l ih =>
    rw [List.enumFrom_cons]
    refine List.Pairwise.cons ?_ (ih (n + 1))
    intro q hq
    have : q.1 ∈ (l.enumFrom (n + 1)).map Prod.fst := List.mem_map_of_mem _ hq
    rw [List.enumFrom_map_fst] at this
    have := List.mem_range'_1.mp this
    omega

theorem pairwise_fst_lt_enum (l : List α) :
    (l.enum).Pairwise (fun p q : ℕ × α => p.1 < q.1) :=
  pairwise_fst_lt_enumFrom 0 l

theorem nodup_fst_of_perm_enum {l : List (ℕ × α)} {l' : List α}
    (hp : List.Perm l l'.enum) : l.Pairwise (fun p q : ℕ × α => p.1 ≠ q.1) := by
  have hn : (l.map Prod.fst).Nodup := by
    refine ((hp.map Prod.fst).nodup_iff).mpr ?_
    rw [List.enum_eq_enumFrom, List.enumFrom_map_fst]
    exact List.nodup_range' _ _
  exact (List.pairwise_map).mp hn

/-- Stability of the descending stable sort: the elements whose key equals any
fixed value `c` appear in the output in exactly their input order. -/
theorem sortDesc_stable (key : α → β) (l : List α) (c : β) :
    (sortDesc key l).filter (fun a => decide (key a = c))
      = l.filter (fun a => decide (key a = c)) := by
  classical
  set P : ℕ × α → Bool := fun p => decide (key p.2 = c) with hP
  set s := l.enum.insertionSort (lexDesc key) with hs
  have hperm : List.Perm (s.filter P) (l.enum.filter P) :=
    (List.perm_insertionSort (lexDesc key) l.enum).filter P
  have hkey : ∀ p ∈ s.filter P, key p.2 = c := by
    intro p hp
    have := (List.mem_filter.mp hp).2
    simpa [hP] using this
  have hsort1 : (s.filter P).Pairwise (fun p q : ℕ × α => p.1 < q.1) := by
    have hlex : (s.filter P).Pairwise (lexDesc key) :=
      (List.sorted_insertionSort (lexDesc key) l.enum).filter P
    have hne : (s.filter P).Pairwise (fun p q : ℕ × α => p.1 ≠ q.1) :=
      (nodup_fst_of_perm_enum
        (List.perm_insertionSort (lexDesc key) l.enum)).sublist
        (List.filter_sublist s)
    have hand := hlex.and hne
    refine hand.imp_of_mem ?_
    rintro p q hp hq ⟨hpq, hne⟩
    rcases hpq with h | ⟨-, h⟩
    · rw [hkey p hp, hkey q hq] at h
      exact absurd h (lt_irrefl _)
    · exact lt_of_le_of_ne h hne
  have hsort2 : (l.enum.filter P).Pairwise (fun p q : ℕ × α => p.1 < q.1) :=
    (pairwise_fst_lt_enum l).sublist (List.filter_sublist _)
  have heq : s.filter P = l.enum.filter P :=
    List.eq_of_perm_of_sorted hperm hsort1 hsort2
  have hcomm : ∀ m : List (ℕ × α),
      (m.map Prod.snd).filter (fun a => decide (key a = c)) = (m.filter P).map Prod.snd := by
    intro m
    rw [List.filter_map]
    rfl
  rw [sortDesc, hcomm, ← hs, heq, ← hcomm, List.enum_eq_enumFrom, List.enumFrom_map_snd]

theorem pairwise_enum_of_pairwise {R : α → α → Prop} {l : List α}
    (h : l.Pairwise R) : l.enum.Pairwise (fun p q : ℕ × α => R p.2 q.2) := by
  have := (List.pairwise_map (f := Prod.snd) (R := R) (l := l.enum)).mp
  rw [List.enum_eq_enumFrom, List.enumFrom_map_snd] at this
  exact this h

/-- Sorting a list that is already sorted descending by key is the identity.
This is the stability guarantee specialised to sorted input. -/
theorem sortDesc_of_sorted (key : α → β) (l : List α)
    (h : l.Pairwise (fun a b => key b ≤ key a)) : sortDesc key l = l := by
  have h1 : l.enum.Pairwise (lexDesc key) := by
    have hk := pairwise_enum_of_pairwise h
    have hf := pairwise_fst_lt_enum l
    refine (hk.and hf).imp ?_
    rintro p q ⟨hle, hlt⟩
    rcases lt_or_eq_of_le hle with h' | h'
    · exact Or.inl h'
    · exact Or.inr ⟨h'.symm, le_of_lt hlt⟩
  rw [sortDesc, List.Sorted.insertionSort_eq h1, List.enum_eq_enumFrom,
    List.enumFrom_map_snd]

/-- Concrete evaluation of the descending stable sort on a two-element list
whose first element has the strictly smaller key. -/
theorem sortDesc_pair_of_lt (key : α → β)
    (a b : α) (h : key a < key b) : sortDesc key [a, b] = [b, a] := by
  unfold sortDesc
  have henum : ([a, b] : List α).enum = [(0, a), (1, b)] := rfl
  rw [henum]
  simp only [List.insertionSort, List.orderedInsert]
  rw [if_neg]
  · rfl
  · rintro (hc | ⟨hc, -⟩)
    · exact absurd hc (not_lt.mpr (le_of_lt h))
    · exact absurd hc (ne_of_lt h)

end StableSort

namespace AC

theorem levR_nil_right (xs : List Char) : levR xs [] = xs.length := by
  cases xs with
  | nil => simp [levR]
  | cons x xs => simp [levR]

theorem levR_self : ∀ xs : List Char, levR xs xs = 0 := by
  intro xs
  induction xs with
  | nil => simp [levR]
  | cons x xs ih =>
    simp only [levR, levCost, eq_self_iff_true, if_true]
    rw [ih]
    omega

theorem levCost_comm (a b : Char) : levCost a b = levCost b a := by
  unfold levCost
  by_cases h : a = b
  · rw [if_pos h, if_pos h.symm]
  · rw [if_neg h, if_neg (fun h' => h h'.symm)]

theorem levR_comm : ∀ xs ys : List Char, levR xs ys = levR ys xs := by
  intro xs
  induction xs with
  | nil =>
    intro ys
    cases ys with
    | nil => rfl
    | cons y ys => simp [levR]
  | cons x xs ihx =>
    intro ys
    induction ys with
    | nil => simp [levR, levR_nil_right]
    | cons y ys ihy =>
      simp only [levR]
      rw [ihx (y :: ys), ihy, ihx ys, levCost_comm]
      omega

theorem map_range_take_cons (g : List Char → ℕ) (c2 : Char) (rest rzs : List Char) :
    (List.range (rest.length + 1 + 1)).map (fun j => g (((c2 :: rest).take j).reverse ++ rzs))
      = g rzs ::
        (List.range (rest.length + 1)).map (fun j => g ((rest.take j).reverse ++ (c2 :: rzs))) := by
  rw [List.range_succ_eq_map, List.map_cons, List.map_map]
  congr 1
  refine List.map_congr_left ?_
  intro j hj
  simp [List.reverse_cons, List.append_assoc]

/-- Invariant of the inner loop of `levenshtein_distance`: if the previous row
holds the distances of the processed part `rcs` (stored reversed) against every
prefix of the remaining column characters, then `rowAux` produces the
corresponding row for `c1 :: rcs`. -/
theorem rowAux_spec (c1 : Char) (rcs : List Char) :
    ∀ ys2 rzs : List Char,
    rowAux c1 ys2
        ((List.range (ys2.length + 1)).map (fun j => levR rcs ((ys2.take j).reverse ++ rzs)))
        (levR (c1 :: rcs) rzs)
      = (List.range (ys2.length + 1)).map
          (fun j => levR (c1 :: rcs) ((ys2.take j).reverse ++ rzs)) := by
  intro ys2
  induction ys2 with
  | nil =>
    intro rzs
    simp [rowAux]
  | cons c2 rest ih =>
    intro rzs
    rw [List.length_cons,
        map_range_take_cons (fun t => levR rcs t) c2 rest rzs,
        map_range_take_cons (fun t => levR (c1 :: rcs) t) c2 rest rzs]
    have hsplit : (List.range (rest.length + 1)).map
          (fun j => levR rcs ((rest.take j).reverse ++ (c2 :: rzs)))
        = levR rcs (c2 :: rzs) ::
          (List.range rest.length).map
            (fun j => levR rcs ((rest.take (j + 1)).reverse ++ (c2 :: rzs))) := by
      rw [List.range_succ_eq_map, List.map_cons, List.map_map]
      congr 1
    rw [hsplit]
    simp only [rowAux]
    rw [← hsplit]
    have hv : min (levR rcs (c2 :: rzs) + 1)
          (min (levR (c1 :: rcs) rzs + 1) (levR rcs rzs + levCost c1 c2))
        = levR (c1 :: rcs) (c2 :: rzs) := by
      conv_rhs => rw [levR]
    rw [hv, ih (c2 :: rzs)]

/-- Invariant of the outer loop of `levenshtein_distance`: consuming the
remaining row characters extends the processed reversed part `rcs`. -/
theorem levLoop_spec (s2 : List Char) :
    ∀ s1rest rcs : List Char,
    levLoop s2 s1rest
        ((List.range (s2.length + 1)).map (fun j => levR rcs (s2.take j).reverse))
        rcs.length
      = (List.range (s2.length + 1)).map
          (fun j => levR (s1rest.reverse ++ rcs) (s2.take j).reverse) := by
  intro s1rest
  induction s1rest with
  | nil =>
    intro rcs
    simp [levLoop]
  | cons c1 rest ih =>
    intro rcs
    simp only [levLoop]
    have hrow := rowAux_spec c1 rcs s2 []
    simp only [List.append_nil, levR_nil_right, List.length_cons] at hrow
    rw [hrow]
    have hih := ih (c1 :: rcs)
    simp only [List.length_cons] at hih
    rw [hih]
    simp only [List.reverse_cons, List.append_assoc, List.singleton_append]

/-- The row-based dynamic program computes the recursive Levenshtein distance
of the reversed inputs (rows are indexed by prefixes, while `levR` recurses on
heads). -/
theorem levCore_eq (s1 s2 : List Char) : levCore s1 s2 = levR s1.reverse s2.reverse := by
  unfold levCore
  by_cases h : s2.length = 0
  · rw [if_pos h]
    rw [List.length_eq_zero] at h
    subst h
    rw [List.reverse_nil, levR_nil_right, List.length_reverse]
  · rw [if_neg h]
    have h0 : (List.range (s2.length + 1)).map
          (fun j => levR ([] : List Char) (s2.take j).reverse)
        = List.range (s2.length + 1) := by
      have hpt : ∀ j ∈ List.range (s2.length + 1),
          levR ([] : List Char) (s2.take j).reverse = j := by
        intro j hj
        rw [List.mem_range] at hj
        simp only [levR, List.length_reverse, List.length_take]
        omega
      calc (List.range (s2.length + 1)).map (fun j => levR ([] : List Char) (s2.take j).reverse)
          = (List.range (s2.length + 1)).map id := List.map_congr_left hpt
        _ = List.range (s2.length + 1) := List.map_id _
    have h1 := levLoop_spec s2 s1 []
    simp only [List.length_nil, List.append_nil] at h1
    rw [← h0, h1, List.range_succ, List.map_append, List.map_cons, List.map_nil,
        List.getLastD_concat, List.take_length]

/-- The embedded `levenshtein_distance` computes the recursive Levenshtein
distance on the longer-first ordering of its arguments. -/
theorem levenshtein_distance_eq (s1 s2 : String) :
    levenshtein_distance s1 s2
      = if s1.length < s2.length then levR s2.data.reverse s1.data.reverse
        else levR s1.data.reverse s2.data.reverse := by
  unfold levenshtein_distance
  by_cases h : s1.length < s2.length
  · rw [if_pos h, if_pos h, levCore_eq]
  · rw [if_neg h, if_neg h, levCore_eq]

theorem levenshtein_distance_self (x : String) : levenshtein_distance x x = 0 := by
  rw [levenshtein_distance_eq, if_neg (lt_irrefl _), levR_self]

theorem levenshtein_distance_comm (a b : String) :
    levenshtein_distance a b = levenshtein_distance b a := by
  rw [levenshtein_distance_eq, levenshtein_distance_eq]
  rcases lt_trichotomy a.length b.length with h | h | h
  · rw [if_pos h, if_neg (by omega)]
  · rw [if_neg (by omega), if_neg (by omega), levR_comm]
  · rw [if_neg (by omega), if_pos h]

theorem fuzzy_match_terms_mem (query : String) (dataset : List Item) (maxd : ℕ) :
    ∀ p ∈ fuzzy_match_terms query dataset maxd,
      p.1 ∈ dataset ∧ p.2 = bestDistance (normalize query) p.1 ∧ p.2 ≤ maxd := by
  intro p hp
  simp only [fuzzy_match_terms] at hp
  have hp' := (StableSort.sortAsc_perm (fun m : Item × ℕ => m.2) _).mem_iff.mp hp
  rcases List.mem_filterMap.mp hp' with ⟨a, ha, hsome⟩
  by_cases hc : bestDistance (normalize query) a ≤ maxd
  · rw [if_pos hc, Option.some_inj] at hsome
    subst hsome
    exact ⟨ha, rfl, hc⟩
  · rw [if_neg hc] at hsome
    exact absurd hsome (Option.noConfusion)

theorem fuzzy_match_terms_sorted (query : String) (dataset : List Item) (maxd : ℕ) :
    (fuzzy_match_terms query dataset maxd).Pairwise (fun p q => p.2 ≤ q.2) := by
  simp only [fuzzy_match_terms]
  exact StableSort.sortAsc_pairwise (fun m : Item × ℕ => m.2) _

theorem autocomplete_short (query : String) (dataset : List Item)
    (h : (normalize query).length < 2) :
    autocomplete_search query dataset
      = { results := [], fuzzy_suggestions := [], has_fuzzy := none } := by
  simp only [autocomplete_search]
  rw [if_pos h]

theorem autocomplete_results_le (query : String) (dataset : List Item) :
    (autocomplete_search query dataset).results.length ≤ 20 := by
  simp only [autocomplete_search]
  by_cases h : (normalize query).length < 2
  · rw [if_pos h]
    simp
  · rw [if_neg h]
    simp only [List.length_take]
    omega

theorem autocomplete_fuzzy_branch (query : String) (dataset : List Item)
    (h2 : ¬ (normalize query).length < 2)
    (hempty : stage2 (normalize query) dataset = [])
    (h3 : 3 ≤ (normalize query).length) :
    (autocomplete_search query dataset).fuzzy_suggestions
        = ((fuzzy_match_terms (normalize query) dataset 2).take 5).map mkSuggestion
      ∧ (autocomplete_search query dataset).results
        = (((fuzzy_match_terms (normalize query) dataset 2).take 10).map
            Prod.fst).take 20 := by
  simp only [autocomplete_search]
  rw [if_neg h2, hempty]
  rw [if_pos (by exact ⟨rfl, h3⟩ : (([] : List Item)).length = 0
    ∧ 3 ≤ (normalize query).length)]
  by_cases hfm : fuzzy_match_terms (normalize query) dataset 2 = []
  · rw [if_pos hfm]
    simp [hfm]
  · rw [if_neg hfm]
    exact ⟨rfl, rfl⟩

theorem autocomplete_no_fuzzy (query : String) (dataset : List Item)
    (h2 : ¬ (normalize query).length < 2)
    (hcond : stage2 (normalize query) dataset ≠ [] ∨ (normalize query).length < 3) :
    (autocomplete_search query dataset).fuzzy_suggestions = []
      ∧ (autocomplete_search query dataset).results
        = (stage2 (normalize query) dataset).take 20 := by
  simp only [autocomplete_search]
  rw [if_neg h2]
  have hneg : ¬ ((stage2 (normalize query) dataset).length = 0
      ∧ 3 ≤ (normalize query).length) := by
    rintro ⟨hlen, hge⟩
    rcases hcond with hne | hlt
    · exact hne (List.length_eq_zero.mp hlen)
    · omega
  rw [if_neg hneg]
  rw [if_pos rfl]
  exact ⟨rfl, rfl⟩

end AC

namespace RR

theorem calculate_boost_formula (n : ℕ) :
    calculate_boost n = min MAX_BOOST (Real.logb 10 ((n : ℝ) + 1) * BOOST_WEIGHT) := by
  cases n with
  | zero =>
    simp [calculate_boost, MAX_BOOST, BOOST_WEIGHT, Real.logb_one]
    norm_num
  | succ k =>
    rw [calculate_boost, if_neg (by omega), min_comm]

theorem calculate_boost_zero : calculate_boost 0 = 0 := by
  simp [calculate_boost]

theorem calculate_boost_mono : Monotone calculate_boost := by
  intro a b hab
  rw [calculate_boost_formula, calculate_boost_formula]
  refine min_le_min le_rfl ?_
  refine mul_le_mul_of_nonneg_right ?_ (by rw [BOOST_WEIGHT]; norm_num)
  refine Real.logb_le_logb_of_le (by norm_num) (by positivity) ?_
  have : (a : ℝ) ≤ (b : ℝ) := by exact_mod_cast hab
  linarith

theorem calculate_boost_le (n : ℕ) : calculate_boost n ≤ MAX_BOOST := by
  rw [calculate_boost_formula]
  exact min_le_left _ _

theorem logb_ten_two_lt : Real.logb 10 2 < 5 := by
  rw [Real.logb_lt_iff_lt_rpow (by norm_num) (by norm_num)]
  rw [show (5 : ℝ) = ((5 : ℕ) : ℝ) by norm_num, Real.rpow_natCast]
  norm_num

theorem logb_ten_two_gt : 1 / 5 < Real.logb 10 2 := by
  rw [Real.lt_logb_iff_rpow_lt (by norm_num) (by norm_num)]
  have h5 : ((10 : ℝ) ^ ((1 / 5 : ℝ))) ^ (5 : ℕ) = 10 := by
    rw [← Real.rpow_natCast ((10 : ℝ) ^ ((1 / 5 : ℝ))) 5, ← Real.rpow_mul (by norm_num)]
    norm_num
  refine lt_of_pow_lt_pow_left₀ 5 (by norm_num) ?_
  rw [h5]
  norm_num

theorem calculate_boost_one : calculate_boost 1 = Real.logb 10 2 * BOOST_WEIGHT := by
  rw [calculate_boost_formula]
  have h2 : ((1 : ℕ) : ℝ) + 1 = 2 := by norm_num
  rw [h2]
  refine min_eq_right ?_
  have := logb_ten_two_lt
  rw [MAX_BOOST, BOOST_WEIGHT]
  nlinarith

theorem calculate_boost_one_gt : 1 / 50 < calculate_boost 1 := by
  rw [calculate_boost_one, BOOST_WEIGHT]
  have := logb_ten_two_gt
  nlinarith

theorem calculate_boost_one_pos : 0 < calculate_boost 1 := by
  have := calculate_boost_one_gt
  linarith

theorem boostOne_falsy {α : Type} (counts : String → ℕ) (item : ResultItem α)
    (h : codeFalsy item.code) : boostOne counts item = item := by
  rw [boostOne, if_pos h]

theorem boostOne_processed {α : Type} (counts : String → ℕ) (item : ResultItem α)
    (h : ¬ codeFalsy item.code) :
    boostOne counts item =
      { item with
        final_score := some (item.score.getD 0.5
          + calculate_boost (counts (item.code.getD "")))
        boost_applied := some (round3 (calculate_boost (counts (item.code.getD ""))))
        selection_count := some (counts (item.code.getD "")) } := by
  rw [boostOne, if_neg h]

theorem boostOne_code {α : Type} (counts : String → ℕ) (item : ResultItem α) :
    (boostOne counts item).code = item.code := by
  by_cases h : codeFalsy item.code
  · rw [boostOne_falsy counts item h]
  · rw [boostOne_processed counts item h]

theorem boostOne_score {α : Type} (counts : String → ℕ) (item : ResultItem α) :
    (boostOne counts item).score = item.score := by
  by_cases h : codeFalsy item.code
  · rw [boostOne_falsy counts item h]
  · rw [boostOne_processed counts item h]

theorem boostOne_extra {α : Type} (counts : String → ℕ) (item : ResultItem α) :
    (boostOne counts item).extra = item.extra := by
  by_cases h : codeFalsy item.code
  · rw [boostOne_falsy counts item h]
  · rw [boostOne_processed counts item h]

/-- With all selection counts zero, a fresh search result (carrying a score
and no `final_score`) keeps its base score as sort key after boosting. -/
theorem sortKey_boostOne_zero {α : Type} (counts : String → ℕ) (item : ResultItem α)
    (hcounts : ∀ s, counts s = 0) (hscore : item.score ≠ none)
    (hfinal : item.final_score = none) :
    sortKey (boostOne counts item) = item.score.getD 0 := by
  rcases Option.ne_none_iff_exists'.mp hscore with ⟨v, hv⟩
  by_cases h : codeFalsy item.code
  · rw [boostOne_falsy counts item h, sortKey, hfinal, Option.getD_none, hv]
  · rw [boostOne_processed counts item h, sortKey]
    simp only [Option.getD_some, hv, hcounts, calculate_boost_zero, add_zero]

/-- The general guarantees of `apply_boost_to_results`: the output is sorted
descending by the sort key, is a permutation of the boosted input, and the
sort is stable (elements of any fixed key keep their input order). -/
theorem apply_boost_sorted_stable {α : Type} (results : List (ResultItem α))
    (counts : String → ℕ) :
    (apply_boost_to_results results counts).Pairwise
        (fun x y => sortKey y ≤ sortKey x)
      ∧ List.Perm (apply_boost_to_results results counts)
          (results.map (boostOne counts))
      ∧ (∀ c : ℝ, (apply_boost_to_results results counts).filter
            (fun x => decide (sortKey x = c))
          = (results.map (boostOne counts)).filter
            (fun x => decide (sortKey x = c))) :=
  ⟨StableSort.sortDesc_pairwise sortKey _,
    StableSort.sortDesc_perm sortKey _,
    fun c => StableSort.sortDesc_stable sortKey _ c⟩

/-- Re-ranking fresh results that are already sorted descending by score with
all selection counts zero does not change the order. -/
theorem apply_boost_noop {α : Type} (results : List (ResultItem α))
    (counts : String → ℕ) (hcounts : ∀ s, counts s = 0)
    (hfresh : ∀ it ∈ results, it.score ≠ none ∧ it.final_score = none)
    (hsorted : results.Pairwise (fun x y => y.score.getD 0 ≤ x.score.getD 0)) :
    apply_boost_to_results results counts = results.map (boostOne counts) := by
  refine StableSort.sortDesc_of_sorted sortKey _ ?_
  rw [List.pairwise_map]
  refine hsorted.imp_of_mem ?_
  intro x y hx hy hxy
  rw [sortKey_boostOne_zero counts x hcounts (hfresh x hx).1 (hfresh x hx).2,
    sortKey_boostOne_zero counts y hcounts (hfresh y hy).1 (hfresh y hy).2]
  exact hxy

end RR

namespace SP

theorem mem_argsort {scores : List ℝ} {i : ℕ} (h : i ∈ argsort scores) :
    i < scores.length := by
  have := (List.perm_insertionSort (argLe scores) (List.range scores.length)).mem_iff.mp h
  exact List.mem_range.mp this

theorem getD_mem {α : Type} (l : List α) (i : ℕ) (d : α) (h : i < l.length) :
    l.getD i d ∈ l := by
  rw [List.getD_eq_getElem l d h]
  exact List.getElem_mem h

theorem tfidf_rerank_subset (tfidfScore : ℕ → ℝ) (candidate_ids : List ℕ) (top_k : ℕ) :
    ∀ x ∈ tfidf_rerank tfidfScore candidate_ids top_k, x ∈ candidate_ids := by
  intro x hx
  simp only [tfidf_rerank] at hx
  rcases List.mem_map.mp hx with ⟨i, hi, rfl⟩
  have h1 : i ∈ argsort (candidate_ids.map tfidfScore) :=
    List.mem_reverse.mp (List.mem_of_mem_take hi)
  have h2 := mem_argsort h1
  rw [List.length_map] at h2
  exact getD_mem _ _ _ h2

theorem semantic_rerank_code_mem (semScore : ℕ → ℝ) (codes terms : List String)
    (candidate_ids : List ℕ) (top_k : ℕ) :
    ∀ c ∈ semantic_rerank semScore codes terms candidate_ids top_k,
      c.code ∈ candidate_ids.map (fun i => codes.getD i "") := by
  intro c hc
  simp only [semantic_rerank] at hc
  rcases List.mem_map.mp hc with ⟨i, hi, rfl⟩
  have h1 : i ∈ argsort (candidate_ids.map semScore) :=
    List.mem_reverse.mp (List.mem_of_mem_take hi)
  have h2 := mem_argsort h1
  rw [List.length_map] at h2
  exact List.mem_map.mpr ⟨candidate_ids.getD i 0, getD_mem _ _ _ h2, rfl⟩

theorem semantic_rerank_length (semScore : ℕ → ℝ) (codes terms : List String)
    (candidate_ids : List ℕ) (top_k : ℕ) :
    (semantic_rerank semScore codes terms candidate_ids top_k).length ≤ top_k := by
  simp only [semantic_rerank, List.length_map, List.length_take]
  omega

end SP

/-- C1: the cascading pipeline strictly narrows: stage 2 returns a subset of
the stage-1 survivors, the stage-3 candidates draw their codes from the
stage-2 survivors, and the final list has at most 10 entries. -/
theorem claim_C1_pipeline_narrowing
    (bm25Scores : List ℝ) (tfidfScore semScore : ℕ → ℝ) (codes terms : List String) :
    (∀ i ∈ SP.tfidf_rerank tfidfScore (SP.bm25_search bm25Scores 100) 60,
        i ∈ SP.bm25_search bm25Scores 100)
    ∧ (∀ c ∈ SP.search_siddha bm25Scores tfidfScore semScore codes terms,
        c.code ∈ (SP.tfidf_rerank tfidfScore (SP.bm25_search bm25Scores 100) 60).map
          (fun i => codes.getD i ""))
    ∧ (SP.search_siddha bm25Scores tfidfScore semScore codes terms).length ≤ 10 :=
  ⟨SP.tfidf_rerank_subset tfidfScore (SP.bm25_search bm25Scores 100) 60,
    SP.semantic_rerank_code_mem semScore codes terms
      (SP.tfidf_rerank tfidfScore (SP.bm25_search bm25Scores 100) 60) 10,
    SP.semantic_rerank_length semScore codes terms
      (SP.tfidf_rerank tfidfScore (SP.bm25_search bm25Scores 100) 60) 10⟩

/-- C2: for every non-negative count, the boost is
`min(MAX_BOOST, log10(count + 1) * BOOST_WEIGHT)` with `MAX_BOOST = 0.5` and
`BOOST_WEIGHT = 0.1`; it is zero at zero, monotone non-decreasing, and capped
at 0.5. -/
theorem claim_C2_boost_formula :
    RR.MAX_BOOST = 0.5
    ∧ RR.BOOST_WEIGHT = 0.1
    ∧ RR.calculate_boost 0 = 0
    ∧ Monotone RR.calculate_boost
    ∧ (∀ n : ℕ, RR.calculate_boost n ≤ RR.MAX_BOOST)
    ∧ (∀ n : ℕ, RR.calculate_boost n
        = min RR.MAX_BOOST (Real.logb 10 ((n : ℝ) + 1) * RR.BOOST_WEIGHT)) :=
  ⟨rfl, rfl, RR.calculate_boost_zero, RR.calculate_boost_mono, RR.calculate_boost_le,
    RR.calculate_boost_formula⟩

/-- C3: the re-ranked list is sorted descending by final score, stable with
respect to the incoming order for equal final scores (and a permutation of the
boosted input); in particular, re-ranking a list of fresh results already
sorted descending by score with all selection counts zero leaves the ordering
unchanged. -/
theorem claim_C3_rerank_sorted_stable :
    (∀ (α : Type) (results : List (RR.ResultItem α)) (counts : String → ℕ),
        (RR.apply_boost_to_results results counts).Pairwise
            (fun x y => RR.sortKey y ≤ RR.sortKey x)
          ∧ List.Perm (RR.apply_boost_to_results results counts)
              (results.map (RR.boostOne counts))
          ∧ (∀ c : ℝ, (RR.apply_boost_to_results results counts).filter
                (fun x => decide (RR.sortKey x = c))
              = (results.map (RR.boostOne counts)).filter
                (fun x => decide (RR.sortKey x = c))))
    ∧ (∀ (α : Type) (results : List (RR.ResultItem α)) (counts : String → ℕ),
        (∀ s, counts s = 0) →
        (∀ it ∈ results, it.score ≠ none ∧ it.final_score = none) →
        results.Pairwise (fun x y => y.score.getD 0 ≤ x.score.getD 0) →
        RR.apply_boost_to_results results counts = results.map (RR.boostOne counts)) :=
  ⟨fun _ results counts => RR.apply_boost_sorted_stable results counts,
    fun _ results counts => RR.apply_boost_noop results counts⟩

/-- Witness for C3: the no-op part applies to the concrete sorted two-element
list `[wItemA, wItemB]` with all counts zero. -/
theorem claim_C3_witness :
    ((∀ s : String, (fun _ : String => (0 : ℕ)) s = 0)
      ∧ (∀ it ∈ [wItemA, wItemB], it.score ≠ none ∧ it.final_score = none)
      ∧ ([wItemA, wItemB].Pairwise (fun x y => y.score.getD 0 ≤ x.score.getD 0)))
    ∧ RR.apply_boost_to_results [wItemA, wItemB] (fun _ => 0)
        = [wItemA, wItemB].map (RR.boostOne (fun _ => 0)) := by
  have h0 : ∀ s : String, (fun _ : String => (0 : ℕ)) s = 0 := fun _ => rfl
  have h1 : ∀ it ∈ [wItemA, wItemB], it.score ≠ none ∧ it.final_score = none := by
    intro it hit
    rcases List.mem_pair.mp hit with rfl | rfl
    · exact ⟨by simp [wItemA], rfl⟩
    · exact ⟨by simp [wItemB], rfl⟩
  have h2 : ([wItemA, wItemB] : List (RR.ResultItem Unit)).Pairwise
      (fun x y => y.score.getD 0 ≤ x.score.getD 0) := by
    refine List.pairwise_pair.mpr ?_
    simp [wItemA, wItemB]
  exact ⟨⟨h0, h1, h2⟩,
    claim_C3_rerank_sorted_stable.2 Unit [wItemA, wItemB] (fun _ => 0) h0 h1 h2⟩

/-- C4 counterexample: code `B` has selection count one, yet re-ranking moves
it from second to first place and its final score differs from its base score,
because `calculate_boost 1 = log10(2) * 0.1 > 0`. -/
theorem claim_C4_counterexample :
    cnts4 "B" = 1
    ∧ (RR.apply_boost_to_results [cexA4, cexB4] cnts4).map (fun x => x.code)
        = [some "B", some "A"]
    ∧ (RR.boostOne cnts4 cexB4).final_score ≠ some ((73 : ℝ) / 100) := by
  have hcA : cnts4 "A" = 0 := by simp [cnts4]
  have hcB : cnts4 "B" = 1 := by simp [cnts4]
  have hfA : ¬ RR.codeFalsy cexA4.code := by simp [cexA4, RR.codeFalsy]
  have hfB : ¬ RR.codeFalsy cexB4.code := by simp [cexB4, RR.codeFalsy]
  have hA := RR.boostOne_processed cnts4 cexA4 hfA
  have hB := RR.boostOne_processed cnts4 cexB4 hfB
  rw [show cexA4.code.getD "" = "A" from rfl, hcA] at hA
  rw [show cexB4.code.getD "" = "B" from rfl, hcB] at hB
  have hkA : RR.sortKey (RR.boostOne cnts4 cexA4) = 3 / 4 := by
    rw [hA, RR.sortKey]
    simp [cexA4, RR.calculate_boost_zero]
  have hkB : RR.sortKey (RR.boostOne cnts4 cexB4) = 73 / 100 + RR.calculate_boost 1 := by
    rw [hB, RR.sortKey]
    simp [cexB4]
  have hlt : RR.sortKey (RR.boostOne cnts4 cexA4) < RR.sortKey (RR.boostOne cnts4 cexB4) := by
    rw [hkA, hkB]
    have := RR.calculate_boost_one_gt
    linarith
  have hsort : RR.apply_boost_to_results [cexA4, cexB4] cnts4
      = [RR.boostOne cnts4 cexB4, RR.boostOne cnts4 cexA4] := by
    unfold RR.apply_boost_to_results
    rw [show ([cexA4, cexB4].map (RR.boostOne cnts4))
        = [RR.boostOne cnts4 cexA4, RR.boostOne cnts4 cexB4] from rfl]
    exact StableSort.sortDesc_pair_of_lt _ _ _ hlt
  refine ⟨hcB, ?_, ?_⟩
  · rw [hsort]
    simp only [List.map_cons, List.map_nil, RR.boostOne_code]
    rfl
  · rw [hB]
    have := RR.calculate_boost_one_pos
    simp only [cexB4, Option.getD_some]
    intro hc
    rw [Option.some_inj] at hc
    linarith

/-- C4 amended: a candidate whose code has selection count zero gets zero
boost, so its final score and sort key equal its base score; but a count of
one already yields the strictly positive boost `log10(2) * 0.1`, so a single
historical selection can change the ordering (see the counterexample). -/
theorem claim_C4_amended :
    (∀ (α : Type) (counts : String → ℕ) (item : RR.ResultItem α),
        ¬ RR.codeFalsy item.code →
        counts (item.code.getD "") = 0 →
        (RR.boostOne counts item).final_score = some (item.score.getD 0.5)
          ∧ RR.sortKey (RR.boostOne counts item) = item.score.getD 0.5)
    ∧ RR.calculate_boost 0 = 0
    ∧ 0 < RR.calculate_boost 1 := by
  refine ⟨?_, RR.calculate_boost_zero, RR.calculate_boost_one_pos⟩
  intro α counts item h h0
  rw [RR.boostOne_processed counts item h]
  constructor
  · simp [h0, RR.calculate_boost_zero]
  · rw [RR.sortKey]
    simp [h0, RR.calculate_boost_zero]

/-- Witness for C4: the zero-count part of the amended claim holds at the
concrete candidate `wItemA` with all counts zero. -/
theorem claim_C4_witness :
    (¬ RR.codeFalsy wItemA.code
      ∧ (fun _ : String => (0 : ℕ)) (wItemA.code.getD "") = 0)
    ∧ (RR.boostOne (fun _ => 0) wItemA).final_score = some (wItemA.score.getD 0.5)
    ∧ RR.sortKey (RR.boostOne (fun _ => 0) wItemA) = wItemA.score.getD 0.5 := by
  have h1 : ¬ RR.codeFalsy wItemA.code := by simp [wItemA, RR.codeFalsy]
  have h2 : (fun _ : String => (0 : ℕ)) (wItemA.code.getD "") = 0 := rfl
  have h := claim_C4_amended.1 Unit (fun _ => 0) wItemA h1 h2
  exact ⟨⟨h1, h2⟩, h.1, h.2⟩

/-- C5 counterexample: on two documents with equal BM25 scores, stage 1 ranks
document 1 before document 0, so ties are broken against catalog insertion
order (the ascending argsort is reversed by the `[::-1]` step). -/
theorem claim_C5_counterexample :
    SP.bm25_search [(1 : ℝ), 1] 100 = [1, 0]
    ∧ SP.bm25_search [(1 : ℝ), 1] 100 ≠ [0, 1] := by
  have h : SP.bm25_search [(1 : ℝ), 1] 100 = [1, 0] := by
    unfold SP.bm25_search SP.argsort
    have hr : List.range ([(1 : ℝ), 1].length) = [0, 1] := rfl
    rw [hr]
    have h1 : ([0, 1] : List ℕ).insertionSort (SP.argLe [(1 : ℝ), 1]) = [0, 1] := by
      simp only [List.insertionSort, List.orderedInsert]
      rw [if_pos]
      simp [SP.argLe]
    rw [h1]
    rfl
  refine ⟨h, ?_⟩
  rw [h]
  decide

/-- C5 amended: stage 1 keeps the top `min(100, n)` documents by descending
BM25 score, but the order of equal-score documents is not guaranteed to follow
catalog insertion order (the counterexample shows two equally-scored documents
coming back reversed).  The first part states what holds for every
tie-resolution `np.argsort` may legally produce, that is, for every
ascending-by-score permutation `p` of the document indices: `p[::-1][:100]`
has length `min(100, n)`, is sorted descending by score, lists only valid
document indices, and no dropped document outscores a kept one.  The second
part shows the embedded `argsort` is one such admissible resolution and that
`bm25_search` is literally its reversal and truncation. -/
theorem claim_C5_amended :
    (∀ (scores : List ℝ) (p : List ℕ),
        List.Perm p (List.range scores.length) →
        p.Pairwise (fun i j => scores.getD i 0 ≤ scores.getD j 0) →
        ((p.reverse).take 100).length = min 100 scores.length
          ∧ ((p.reverse).take 100).Pairwise
              (fun i j => scores.getD j 0 ≤ scores.getD i 0)
          ∧ (∀ i ∈ (p.reverse).take 100, i < scores.length)
          ∧ (∀ i ∈ (p.reverse).take 100, ∀ j < scores.length,
              j ∉ (p.reverse).take 100 → scores.getD j 0 ≤ scores.getD i 0))
    ∧ (∀ scores : List ℝ,
        List.Perm (SP.argsort scores) (List.range scores.length)
          ∧ (SP.argsort scores).Pairwise
              (fun i j => scores.getD i 0 ≤ scores.getD j 0)
          ∧ SP.bm25_search scores 100 = ((SP.argsort scores).reverse).take 100) := by
  constructor
  · intro scores p hp hsort
    have hrev : (p.reverse).Pairwise (fun i j => scores.getD j 0 ≤ scores.getD i 0) := by
      rw [List.pairwise_reverse]
      exact hsort
    refine ⟨?_, ?_, ?_, ?_⟩
    · rw [List.length_take, List.length_reverse, hp.length_eq, List.length_range]
    · exact hrev.sublist (List.take_sublist _ _)
    · intro i hi
      have : i ∈ p := List.mem_reverse.mp (List.mem_of_mem_take hi)
      exact List.mem_range.mp (hp.mem_iff.mp this)
    · intro i hi j hj hnot
      have hjmem : j ∈ p.reverse := by
        rw [List.mem_reverse]
        exact hp.mem_iff.mpr (List.mem_range.mpr hj)
      have hjdrop : j ∈ (p.reverse).drop 100 := by
        rcases (List.mem_append.mp (by
          rwa [List.take_append_drop] : j ∈ (p.reverse).take 100
            ++ (p.reverse).drop 100)) with hc | hc
        · exact absurd hc hnot
        · exact hc
      exact List.Sorted.rel_of_mem_take_of_mem_drop hrev hi hjdrop
  · intro scores
    refine ⟨List.perm_insertionSort (SP.argLe scores) _, ?_, rfl⟩
    refine (List.sorted_insertionSort (SP.argLe scores) (List.range scores.length)).imp ?_
    rintro i j (h | ⟨h, -⟩)
    · exact le_of_lt h
    · exact le_of_eq h

/-- Witness for C5: the universally quantified part of the amended claim
applies to the concrete admissible argsort output `[0, 1]` for the equal
scores `[1, 1]`. -/
theorem claim_C5_witness :
    (List.Perm [0, 1] (List.range [(1 : ℝ), 1].length)
      ∧ ([0, 1] : List ℕ).Pairwise
          (fun i j => [(1 : ℝ), 1].getD i 0 ≤ [(1 : ℝ), 1].getD j 0))
    ∧ ((([0, 1] : List ℕ).reverse).take 100).length = min 100 [(1 : ℝ), 1].length
    ∧ ((([0, 1] : List ℕ).reverse).take 100).Pairwise
        (fun i j => [(1 : ℝ), 1].getD j 0 ≤ [(1 : ℝ), 1].getD i 0)
    ∧ (∀ i ∈ (([0, 1] : List ℕ).reverse).take 100, i < [(1 : ℝ), 1].length)
    ∧ (∀ i ∈ (([0, 1] : List ℕ).reverse).take 100, ∀ j < [(1 : ℝ), 1].length,
        j ∉ (([0, 1] : List ℕ).reverse).take 100
          → [(1 : ℝ), 1].getD j 0 ≤ [(1 : ℝ), 1].getD i 0) := by
  have hrange : List.range [(1 : ℝ), 1].length = [0, 1] := rfl
  have hp : List.Perm [0, 1] (List.range [(1 : ℝ), 1].length) := by
    rw [hrange]
  have hsort : ([0, 1] : List ℕ).Pairwise
      (fun i j => [(1 : ℝ), 1].getD i 0 ≤ [(1 : ℝ), 1].getD j 0) := by
    refine List.pairwise_pair.mpr ?_
    norm_num
  have h := claim_C5_amended.1 [(1 : ℝ), 1] [0, 1] hp hsort
  exact ⟨⟨hp, hsort⟩, h.1, h.2.1, h.2.2.1, h.2.2.2⟩

/-- C6: a query that normalizes to fewer than 2 characters takes the early
return of `autocomplete_search`, whose dictionary has empty `results` and
`fuzzy_suggestions` but no `has_fuzzy` key at all (modelled as `none`), even
though every API route then reads `search_result["has_fuzzy"]`. -/
theorem claim_C6_short_query_missing_key :
    (AC.normalize "a").length < 2
    ∧ AC.autocomplete_search "a" feverCatalog
        = { results := [], fuzzy_suggestions := [], has_fuzzy := none }
    ∧ (AC.autocomplete_search "a" feverCatalog).has_fuzzy ≠ some false := by
  decide

/-- C7: the final result list of `autocomplete_search` is always capped at 20;
every fuzzy match pairs a catalog document with the minimum of its three edit
distances and that minimum is at most 2; the matches are sorted ascending by
distance; the fuzzy stage feeds exactly the best 5 matches to
`fuzzy_suggestions` and the best 10 to `results` precisely when the prefix and
substring stages produced no results and the normalized query has length at
least 3; otherwise no fuzzy suggestion is produced. -/
theorem claim_C7_fuzzy_stage :
    (∀ (query : String) (dataset : List AC.Item),
        (AC.autocomplete_search query dataset).results.length ≤ 20)
    ∧ (∀ (query : String) (dataset : List AC.Item),
        (∀ p ∈ AC.fuzzy_match_terms query dataset 2,
            p.1 ∈ dataset ∧ p.2 = AC.bestDistance (AC.normalize query) p.1 ∧ p.2 ≤ 2)
          ∧ (AC.fuzzy_match_terms query dataset 2).Pairwise (fun p q => p.2 ≤ q.2))
    ∧ (∀ (query : String) (dataset : List AC.Item),
        2 ≤ (AC.normalize query).length →
        AC.stage2 (AC.normalize query) dataset = [] →
        3 ≤ (AC.normalize query).length →
        (AC.autocomplete_search query dataset).fuzzy_suggestions
            = ((AC.fuzzy_match_terms (AC.normalize query) dataset 2).take 5).map
                AC.mkSuggestion
          ∧ (AC.autocomplete_search query dataset).results
            = (((AC.fuzzy_match_terms (AC.normalize query) dataset 2).take 10).map
                Prod.fst).take 20)
    ∧ (∀ (query : String) (dataset : List AC.Item),
        2 ≤ (AC.normalize query).length →
        (AC.stage2 (AC.normalize query) dataset ≠ []
          ∨ (AC.normalize query).length < 3) →
        (AC.autocomplete_search query dataset).fuzzy_suggestions = []
          ∧ (AC.autocomplete_search query dataset).results
            = (AC.stage2 (AC.normalize query) dataset).take 20) := by
  refine ⟨AC.autocomplete_results_le, ?_, ?_, ?_⟩
  · intro query dataset
    exact ⟨AC.fuzzy_match_terms_mem query dataset 2,
      AC.fuzzy_match_terms_sorted query dataset 2⟩
  · intro query dataset h2 hempty h3
    exact AC.autocomplete_fuzzy_branch query dataset (by omega) hempty h3
  · intro query dataset h2 hcond
    exact AC.autocomplete_no_fuzzy query dataset (by omega) hcond

/-- Witness for C7: the fuzzy-branch part applies to the concrete query
`febr` against the `Fever disorder` catalog. -/
theorem claim_C7_witness :
    (2 ≤ (AC.normalize "febr").length
      ∧ AC.stage2 (AC.normalize "febr") feverCatalog = []
      ∧ 3 ≤ (AC.normalize "febr").length)
    ∧ (AC.autocomplete_search "febr" feverCatalog).fuzzy_suggestions
        = ((AC.fuzzy_match_terms (AC.normalize "febr") feverCatalog 2).take 5).map
            AC.mkSuggestion
    ∧ (AC.autocomplete_search "febr" feverCatalog).results
        = (((AC.fuzzy_match_terms (AC.normalize "febr") feverCatalog 2).take 10).map
            Prod.fst).take 20 := by
  have h1 : 2 ≤ (AC.normalize "febr").length := by decide
  have h2 : AC.stage2 (AC.normalize "febr") feverCatalog = [] := by decide
  have h3 : 3 ≤ (AC.normalize "febr").length := by decide
  have h := claim_C7_fuzzy_stage.2.2.1 "febr" feverCatalog h1 h2 h3
  exact ⟨⟨h1, h2, h3⟩, h.1, h.2⟩

/-- C8 counterexample: the Levenshtein distance between `febr` and `fever` is
2 (substitute one letter and insert one), not 1, and the fuzzy suggestion for
`febr` against the `Fever disorder` catalog carries distance 2. -/
theorem claim_C8_counterexample :
    AC.levenshtein_distance "febr" "fever" = 2
    ∧ AC.levenshtein_distance "febr" "fever" ≠ 1
    ∧ (AC.autocomplete_search "febr" feverCatalog).fuzzy_suggestions.map
        (fun s => s.distance) = [2] := by
  decide

/-- C8 amended: the query `febr` against a catalog containing only
`Fever disorder` produces no prefix or substring hit, and the fuzzy stage
returns that document in `fuzzy_suggestions` with distance 2 and
`has_fuzzy = True`; correspondingly `distance("febr", "fever") = 2`. -/
theorem claim_C8_amended :
    AC.stage2 (AC.normalize "febr") feverCatalog = []
    ∧ (AC.autocomplete_search "febr" feverCatalog).has_fuzzy = some true
    ∧ (AC.autocomplete_search "febr" feverCatalog).fuzzy_suggestions.map
        (fun s => (s.item, s.distance)) = [(feverItem, 2)]
    ∧ (AC.autocomplete_search "febr" feverCatalog).results = [feverItem]
    ∧ AC.levenshtein_distance "febr" "fever" = 2 := by
  decide

/-- C9: the embedded `levenshtein_distance` is zero on equal strings and
symmetric in its arguments, despite the implementation reordering them by
length. -/
theorem claim_C9_levenshtein_self_symm :
    (∀ x : String, AC.levenshtein_distance x x = 0)
    ∧ (∀ a b : String, AC.levenshtein_distance a b = AC.levenshtein_distance b a) :=
  ⟨AC.levenshtein_distance_self, AC.levenshtein_distance_comm⟩

/-- C10 counterexample: a candidate with a missing code but a pre-existing
`final_score` field is ordered by that stale final score, not by its raw
score: with raw score 1 it still ends up after a candidate whose final score
is 1/2. -/
theorem claim_C10_counterexample :
    RR.codeFalsy cexX10.code = true
    ∧ cexX10.score = some 1
    ∧ (RR.apply_boost_to_results [cexX10, cexY10] (fun _ => 0)).map (fun x => x.code)
        = [some "A", none] := by
  have hfX : RR.codeFalsy cexX10.code = true := rfl
  have hfY : ¬ RR.codeFalsy cexY10.code := by simp [cexY10, RR.codeFalsy]
  have hX : RR.boostOne (fun _ => 0) cexX10 = cexX10 :=
    RR.boostOne_falsy _ cexX10 hfX
  have hY := RR.boostOne_processed (fun _ => 0) cexY10 hfY
  have hkX : RR.sortKey cexX10 = 0 := by
    rw [RR.sortKey]
    simp [cexX10]
  have hkY : RR.sortKey (RR.boostOne (fun _ => 0) cexY10) = 1 / 2 := by
    rw [hY, RR.sortKey]
    simp [cexY10, RR.calculate_boost_zero]
  have hlt : RR.sortKey cexX10 < RR.sortKey (RR.boostOne (fun _ => 0) cexY10) := by
    rw [hkX, hkY]
    norm_num
  have hsort : RR.apply_boost_to_results [cexX10, cexY10] (fun _ => 0)
      = [RR.boostOne (fun _ => 0) cexY10, cexX10] := by
    unfold RR.apply_boost_to_results
    rw [show ([cexX10, cexY10].map (RR.boostOne (fun _ => 0)))
        = [RR.boostOne (fun _ => 0) cexX10, RR.boostOne (fun _ => 0) cexY10] from rfl,
      hX]
    exact StableSort.sortDesc_pair_of_lt _ _ _ hlt
  refine ⟨hfX, rfl, ?_⟩
  rw [hsort]
  simp only [List.map_cons, List.map_nil, RR.boostOne_code]
  rfl

/-- C10 amended: `apply_boost_to_results` returns a permutation of the boosted
input; boosting changes nothing but the three written fields; a candidate with
a missing or empty code is left entirely unmodified; and the sort key of any
candidate without a `final_score` field is its raw score, with a missing score
treated as 0 (a stale pre-existing `final_score` takes precedence, as the
counterexample shows). -/
theorem claim_C10_amended :
    (∀ (α : Type) (results : List (RR.ResultItem α)) (counts : String → ℕ),
        List.Perm (RR.apply_boost_to_results results counts)
          (results.map (RR.boostOne counts)))
    ∧ (∀ (α : Type) (counts : String → ℕ) (it : RR.ResultItem α),
        (RR.boostOne counts it).code = it.code
          ∧ (RR.boostOne counts it).score = it.score
          ∧ (RR.boostOne counts it).extra = it.extra)
    ∧ (∀ (α : Type) (counts : String → ℕ) (it : RR.ResultItem α),
        RR.codeFalsy it.code → RR.boostOne counts it = it)
    ∧ (∀ (α : Type) (it : RR.ResultItem α),
        it.final_score = none → RR.sortKey it = it.score.getD 0) := by
  refine ⟨?_, ?_, ?_, ?_⟩
  · intro α results counts
    exact StableSort.sortDesc_perm RR.sortKey _
  · intro α counts it
    exact ⟨RR.boostOne_code counts it, RR.boostOne_score counts it,
      RR.boostOne_extra counts it⟩
  · intro α counts it h
    exact RR.boostOne_falsy counts it h
  · intro α it h
    rw [RR.sortKey, h, Option.getD_none]

/-- Witness for C10: the conditional parts of the amended claim hold at the
concrete candidates `cexX10` (falsy code) and `cexY10` (no final score). -/
theorem claim_C10_witness :
    (RR.codeFalsy cexX10.code ∧ cexY10.final_score = none)
    ∧ RR.boostOne (fun _ => 0) cexX10 = cexX10
    ∧ RR.sortKey cexY10 = cexY10.score.getD 0 := by
  have h1 : RR.codeFalsy cexX10.code = true := rfl
  have h2 : cexY10.final_score = none := rfl
  exact ⟨⟨h1, h2⟩, claim_C10_amended.2.2.1 Unit (fun _ => 0) cexX10 h1,
    claim_C10_amended.2.2.2 Unit cexY10 h2⟩
